import Mathlib

/-!
Verification of the streaming SSE/JSON reassembly and formatting core of the
contract-genai frontend (src/contract-genai-frontend/src/utils/api.ts).

JavaScript strings are embedded as `List Char` (named `Str` below); each helper
function of api.ts is translated into an executable Lean definition, and the
`streamContract` read loop is modelled as a step function over an explicit
session state together with the list of callback invocations it performs.
-/

namespace CG

/-- JS strings are modelled as lists of characters. -/
abbrev Str := List Char

/-- Shorthand turning a Lean string literal into the `List Char` model. -/
def str (s : String) : Str := s.toList

/-- The character class matched by the JavaScript regex `\s` (and stripped by
`String.prototype.trim`): ASCII whitespace, NBSP, and the Unicode space
separators. -/
def wsChar (c : Char) : Bool :=
  c == ' ' || c == '\t' || c == '\n' || c == '\r' ||
  c.val == 11 || c.val == 12 || c.val == 0xA0 || c.val == 0x1680 ||
  (0x2000 ≤ c.val && c.val ≤ 0x200A) ||
  c.val == 0x2028 || c.val == 0x2029 || c.val == 0x202F ||
  c.val == 0x205F || c.val == 0x3000 || c.val == 0xFEFF

/-- Model of `String.prototype.trim`: strip leading and trailing whitespace. -/
def jsTrim (l : Str) : Str :=
  ((l.dropWhile wsChar).reverse.dropWhile wsChar).reverse

/-- Model of `String.prototype.includes`: substring containment. -/
def jsIncludes (s sub : Str) : Bool := decide (List.IsInfix sub s)

/-- Model of `buffer.split('\n')` (JavaScript split on a one-character
separator): the separator is removed, empty pieces are kept, and the result is
never empty. -/
def splitLines : Str → List Str
  | [] => [[]]
  | c :: rest =>
    match splitLines rest with
    | [] => [[]]
    | l :: ls => if c = '\n' then [] :: l :: ls else (c :: l) :: ls

/-- State of the character scan of api.ts lines 201-227: brace depth,
inside-string flag, escape-pending flag. -/
structure ScanSt where
  depth : Int
  inStr : Bool
  esc : Bool
deriving DecidableEq, Repr

/-- One step of the brace-counting scan (api.ts lines 205-227): an escape
consumes the following character, a backslash sets the escape flag, an
unescaped double quote toggles the in-string flag, and braces adjust the depth
only outside strings. -/
def scanStep (s : ScanSt) (c : Char) : ScanSt :=
  if s.esc then { s with esc := false }
  else if c = '\\' then { s with esc := true }
  else if c = '"' then { s with inStr := !s.inStr }
  else if !s.inStr then
    if c = '{' then { s with depth := s.depth + 1 }
    else if c = '}' then { s with depth := s.depth - 1 }
    else s
  else s

/-- The final `braceCount` computed by the scan of api.ts lines 201-227. -/
def braceScan (l : Str) : Int :=
  (l.foldl scanStep ⟨0, false, false⟩).depth

/-- The completion sentinel payload `[DONE]` (api.ts line 182). -/
def doneSentinel : Str := str "[DONE]"

/-- Fragment Assembler step (api.ts lines 179-238 together with 302-315): the
raw event payload is trimmed; the sentinel and empty payloads are skipped; a
pending incomplete buffer is prepended; payloads starting with a brace are
either emitted as a complete object (balanced scan) or buffered; anything else
is discarded.  Returns the new pending buffer and the complete JSON payloads
handed on to parsing. -/
def assembleStep (pending rawData : Str) : Str × List Str :=
  let data := jsTrim rawData
  if data = doneSentinel then (pending, [])
  else if data = [] then (pending, [])
  else
    let jsonData := if pending = [] then data else pending ++ data
    if jsonData.head? = some '{' then
      if braceScan jsonData = 0 then ([], [jsonData])
      else (jsonData, [])
    else ([], [])

/-- The Fragment Assembler run over a sequence of event payloads, threading the
pending buffer and collecting the complete JSON payloads in order. -/
def assembleRun (pending : Str) : List Str → Str × List Str
  | [] => (pending, [])
  | e :: rest =>
    let s1 := assembleStep pending e
    let s2 := assembleRun s1.1 rest
    (s2.1, s1.2 ++ s2.2)

/-- A payload that the scan recognises as one whole JSON object: it starts with
a brace, the scan balances exactly at the end and at no proper non-empty
prefix, and it carries no leading or trailing whitespace. -/
def wholeObject (o : Str) : Prop :=
  o.head? = some '{' ∧ braceScan o = 0 ∧
  (∀ n, n < o.length → 0 < n → braceScan (o.take n) ≠ 0) ∧
  jsTrim o = o

instance (o : Str) : Decidable (wholeObject o) := by
  unfold wholeObject; infer_instance

/-- A split piece that survives the per-event trim untouched and is not the
sentinel. -/
def goodPiece (p : Str) : Prop := jsTrim p = p ∧ p ≠ doneSentinel

instance (p : Str) : Decidable (goodPiece p) := by
  unfold goodPiece; infer_instance

/-! ## Formatter helpers -/

/-- Numeric value of a decimal digit, for entity decoding. -/
def digitVal (c : Char) : Nat := c.toNat - '0'.toNat

/-- Model of the browser textarea-based `decodeHtmlEntities` of api.ts lines
43-47 for the standard character references: named entities for ampersand,
angle brackets, quotes and non-breaking space, and decimal numeric references.
Unknown references pass through unchanged. -/
def decodeHtmlEntitiesF : Nat → Str → Str
  | 0, l => l
  | _ + 1, [] => []
  | fuel + 1, '&' :: rest =>
    let name := rest.takeWhile (fun c => c ≠ ';' ∧ c ≠ '&')
    match rest.drop name.length with
    | ';' :: after =>
      if name = str "amp" then '&' :: decodeHtmlEntitiesF fuel after
      else if name = str "lt" then '<' :: decodeHtmlEntitiesF fuel after
      else if name = str "gt" then '>' :: decodeHtmlEntitiesF fuel after
      else if name = str "quot" then '"' :: decodeHtmlEntitiesF fuel after
      else if name = str "nbsp" then Char.ofNat 0xA0 :: decodeHtmlEntitiesF fuel after
      else if name ≠ [] ∧ name.head? = some '#' ∧
          (name.tail.all Char.isDigit) ∧ name.tail ≠ [] then
        Char.ofNat (name.tail.foldl (fun a c => a * 10 + digitVal c) 0 % 0x110000) ::
          decodeHtmlEntitiesF fuel after
      else '&' :: decodeHtmlEntitiesF fuel rest
    | _ => '&' :: decodeHtmlEntitiesF fuel rest
  | fuel + 1, c :: rest => c :: decodeHtmlEntitiesF fuel rest

/-- Entity decoding with enough fuel to process the whole input. -/
def decodeHtmlEntities (l : Str) : Str := decodeHtmlEntitiesF (l.length + 1) l

/-- Does the list start with the four characters `html`? -/
def htmlLead (l : Str) : Bool := l.take 4 = str "html"

/-- Model of the global JS replaces `html\s*html -> html`,
`html\s*\n\s*html -> html` and `html\s*\n\s*\n\s*html -> html` (api.ts lines
75-78, 557-559, 604-605, 663-664): `minNl` is the number of newlines the
whitespace run between the two tokens must contain (0, 1 or 2).  Scans left to
right, replacing each match and continuing after it, with fuel bounded by the
input length. -/
def replaceHtmlWs (minNl : Nat) : Nat → Str → Str
  | 0, l => l
  | _ + 1, [] => []
  | fuel + 1, c :: rest =>
    if htmlLead (c :: rest) then
      let after := (c :: rest).drop 4
      let wsRun := after.takeWhile wsChar
      let rem := after.drop wsRun.length
      if htmlLead rem ∧ minNl ≤ wsRun.count '\n' then
        str "html" ++ replaceHtmlWs minNl fuel (rem.drop 4)
      else c :: replaceHtmlWs minNl fuel rest
    else c :: replaceHtmlWs minNl fuel rest

/-- The character class `[a-zA-Z\s]` of api.ts line 81. -/
def alphaWsChar (c : Char) : Bool :=
  ('a' ≤ c && c ≤ 'z') || ('A' ≤ c && c ≤ 'Z') || wsChar c

/-- Model of `replace(/([a-zA-Z\s]+)html$/g, '$1')` (api.ts lines 81, 560,
606, 665): when the string ends in `html` preceded by at least one letter or
whitespace character, the trailing `html` is deleted; otherwise the string is
unchanged. -/
def stripTrailingHtml (l : Str) : Str :=
  match l.reverse with
  | 'l' :: 'm' :: 't' :: 'h' :: c :: rest =>
    if alphaWsChar c then (c :: rest).reverse else l
  | _ => l

/-- Model of `replace(/html\s*$/g, '')` (api.ts line 561): a trailing `html`
followed only by whitespace is deleted together with that whitespace. -/
def stripHtmlWsEnd (l : Str) : Str :=
  let r1 := l.reverse.dropWhile wsChar
  match r1 with
  | 'l' :: 'm' :: 't' :: 'h' :: rest => rest.reverse
  | _ => l

/-- Model of `replace(/^\s*html\s*/g, '')` (api.ts line 562): a leading
`html`, with surrounding whitespace, is deleted. -/
def stripHtmlWsStart (l : Str) : Str :=
  let l1 := l.dropWhile wsChar
  if htmlLead l1 then (l1.drop 4).dropWhile wsChar else l

/-- Emit the pending run of newlines: runs of one or two newlines are kept
verbatim, longer runs have already been capped at two. -/
def pendNl (k : Nat) : Str := List.replicate (min k 2) '\n'

/-- Model of `replace(/\n{3,}/g, '\n\n')` (api.ts line 85) as a structural
state machine: `k` counts the newlines of the current run (capped at 3). -/
def collapseNl3Aux : Nat → Str → Str
  | k, [] => pendNl k
  | k, c :: rest =>
    if c = '\n' then collapseNl3Aux (min (k + 1) 3) rest
    else pendNl k ++ c :: collapseNl3Aux 0 rest

/-- Replace every run of three or more newlines by exactly two. -/
def collapseNl3 (l : Str) : Str := collapseNl3Aux 0 l

/-- States of the `\s{2,}` collapse machine: scanning normally, holding one
whitespace character that may still be a singleton run, or inside a run of two
or more whitespace characters that will be emitted as a single space. -/
inductive WsSt
  | norm
  | pend (w : Char)
  | run
deriving DecidableEq, Repr

/-- Model of `replace(/\s{2,}/g, ' ')` (api.ts line 86) as a structural state
machine: a lone whitespace character is kept verbatim, a run of two or more is
replaced by a single space. -/
def collapseWsAux : WsSt → Str → Str
  | .norm, [] => []
  | .pend w, [] => [w]
  | .run, [] => [' ']
  | .norm, c :: rest =>
    if wsChar c then collapseWsAux (.pend c) rest else c :: collapseWsAux .norm rest
  | .pend w, c :: rest =>
    if wsChar c then collapseWsAux .run rest else w :: c :: collapseWsAux .norm rest
  | .run, c :: rest =>
    if wsChar c then collapseWsAux .run rest else ' ' :: c :: collapseWsAux .norm rest

/-- Replace every run of two or more whitespace characters by a single space. -/
def collapseWs (l : Str) : Str := collapseWsAux .norm l

/-- `formatTextContent` (api.ts lines 60-95): decode HTML entities, collapse
duplicated `html` tokens, strip a trailing `html` after letters/whitespace,
collapse three or more newlines to two, collapse runs of whitespace to a single
space, and trim. -/
def formatTextContent (text : Str) : Str :=
  let decoded := decodeHtmlEntities text
  let cleaned := replaceHtmlWs 0 (decoded.length + 1) decoded
  let cleaned := replaceHtmlWs 1 (cleaned.length + 1) cleaned
  let cleaned := replaceHtmlWs 2 (cleaned.length + 1) cleaned
  let cleaned := replaceHtmlWs 0 (cleaned.length + 1) cleaned
  let cleaned := stripTrailingHtml cleaned
  jsTrim (collapseWs (collapseNl3 cleaned))

/-! ### Markdown-to-plain-text replaces of `convertToPlainText` -/

/-- Search for the closing delimiter of a lazy group `delim(.*?)delim`: the
dot does not match a newline, so the group may not cross one.  Returns the
group and the remainder after the closing delimiter. -/
def findClose (delim : Str) : Str → Option (Str × Str)
  | [] => none
  | c :: rest =>
    if (c :: rest).take delim.length = delim then some ([], (c :: rest).drop delim.length)
    else if c = '\n' then none
    else
      match findClose delim rest with
      | some (g, r) => some (c :: g, r)
      | none => none

/-- Model of the global replace `delim(.*?)delim -> $1` used for `**`, `*` and
the backtick in api.ts lines 670-672: each delimited group loses its
delimiters; positions without a complete match are copied unchanged. -/
def removeDelim (delim : Str) : Nat → Str → Str
  | 0, l => l
  | _ + 1, [] => []
  | fuel + 1, c :: rest =>
    if (c :: rest).take delim.length = delim then
      match findClose delim ((c :: rest).drop delim.length) with
      | some (g, r) => g ++ removeDelim delim fuel r
      | none => c :: removeDelim delim fuel rest
    else c :: removeDelim delim fuel rest

/-- Apply a per-line rewrite, modelling a `^...$` multiline global replace:
split on newlines, rewrite each line, rejoin. -/
def mapLines (f : Str → Str) (l : Str) : Str :=
  List.intercalate ['\n'] ((splitLines l).map f)

/-- Strip a literal line prefix when present (`replace(/^P (.*$)/gm, '$1')`). -/
def stripLineMark (p : Str) (line : Str) : Str :=
  if line.take p.length = p then line.drop p.length else line

/-- Model of `replace(/^- (.*$)/gm, '• $1')` (api.ts line 676). -/
def bulletLine (line : Str) : Str :=
  if line.take 2 = str "- " then Char.ofNat 0x2022 :: ' ' :: line.drop 2 else line

/-- Model of `replace(/^\d+\. (.*$)/gm, '$1')` (api.ts line 677): drop a
leading run of digits followed by a dot and a space. -/
def stripNumberLine (line : Str) : Str :=
  let ds := line.takeWhile Char.isDigit
  if ds ≠ [] ∧ (line.drop ds.length).take 2 = str ". " then line.drop (ds.length + 2)
  else line

/-- `convertToPlainText` (api.ts lines 655-681): decode entities, clean `html`
artifacts, trim, then strip the markdown emphasis, code, heading, list and
numbered-list markers. -/
def convertToPlainText (rawText : Str) : Str :=
  let decoded := decodeHtmlEntities rawText
  let cleaned := replaceHtmlWs 0 (decoded.length + 1) decoded
  let cleaned := replaceHtmlWs 1 (cleaned.length + 1) cleaned
  let cleaned := stripTrailingHtml cleaned
  let cleaned := jsTrim cleaned
  let cleaned := removeDelim (str "**") (cleaned.length + 1) cleaned
  let cleaned := removeDelim (str "*") (cleaned.length + 1) cleaned
  let cleaned := removeDelim ([Char.ofNat 96]) (cleaned.length + 1) cleaned
  let cleaned := mapLines (stripLineMark (str "# ")) cleaned
  let cleaned := mapLines (stripLineMark (str "## ")) cleaned
  let cleaned := mapLines (stripLineMark (str "### ")) cleaned
  let cleaned := mapLines bulletLine cleaned
  mapLines stripNumberLine cleaned

/-! ## JSON values and `JSON.parse` -/

/-- JSON values as produced by `JSON.parse`.  Numbers keep their source
lexeme: no claim depends on numeric values beyond zero-ness. -/
inductive JVal
  | null
  | jbool (b : Bool)
  | num (lex : Str)
  | jstr (s : Str)
  | arr (xs : List JVal)
  | obj (fs : List (Str × JVal))

/-- The whitespace accepted between JSON tokens. -/
def jsonWsChar (c : Char) : Bool := c == ' ' || c == '\t' || c == '\n' || c == '\r'

/-- Skip JSON inter-token whitespace. -/
def skipJWs (l : Str) : Str := l.dropWhile jsonWsChar

/-- Value of a hexadecimal digit. -/
def hexVal (c : Char) : Option Nat :=
  if '0' ≤ c ∧ c ≤ '9' then some (c.toNat - '0'.toNat)
  else if 'a' ≤ c ∧ c ≤ 'f' then some (c.toNat - 'a'.toNat + 10)
  else if 'A' ≤ c ∧ c ≤ 'F' then some (c.toNat - 'A'.toNat + 10)
  else none

/-- Single-character JSON string escapes. -/
def escChar : Char → Option Char
  | '"' => some '"'
  | '\\' => some '\\'
  | '/' => some '/'
  | 'b' => some (Char.ofNat 8)
  | 'f' => some (Char.ofNat 12)
  | 'n' => some '\n'
  | 'r' => some '\r'
  | 't' => some '\t'
  | _ => none

/-- Parse the body of a JSON string literal (after the opening quote), per the
`JSON.parse` grammar: escapes, `\uXXXX` references (lone surrogate code units
become the replacement character, which `Char` cannot hold), and a rejection
of raw control characters. -/
def parseJStr : Nat → Str → Option (Str × Str)
  | 0, _ => none
  | _ + 1, [] => none
  | fuel + 1, c :: rest =>
    if c = '"' then some ([], rest)
    else if c = '\\' then
      match rest with
      | 'u' :: h1 :: h2 :: h3 :: h4 :: r2 =>
        match hexVal h1, hexVal h2, hexVal h3, hexVal h4 with
        | some a, some b, some c4, some d =>
          let n := ((a * 16 + b) * 16 + c4) * 16 + d
          let ch := if 0xD800 ≤ n ∧ n ≤ 0xDFFF then Char.ofNat 0xFFFD else Char.ofNat n
          (parseJStr fuel r2).map (fun p => (ch :: p.1, p.2))
        | _, _, _, _ => none
      | e :: r2 =>
        match escChar e with
        | some ch => (parseJStr fuel r2).map (fun p => (ch :: p.1, p.2))
        | none => none
      | [] => none
    else if c.toNat < 0x20 then none
    else (parseJStr fuel rest).map (fun p => (c :: p.1, p.2))

/-- Parse the fraction part of a JSON number, if present. -/
def parseFrac : Str → Option (Str × Str)
  | '.' :: r =>
    let ds := r.takeWhile Char.isDigit
    if ds = [] then none else some ('.' :: ds, r.drop ds.length)
  | l => some ([], l)

/-- Parse the exponent part of a JSON number, if present. -/
def parseExp : Str → Option (Str × Str)
  | [] => some ([], [])
  | e :: r =>
    if e = 'e' ∨ e = 'E' then
      let sr : Str × Str :=
        match r with
        | '+' :: rr => (['+'], rr)
        | '-' :: rr => (['-'], rr)
        | _ => ([], r)
      let ds := sr.2.takeWhile Char.isDigit
      if ds = [] then none else some (e :: sr.1 ++ ds, sr.2.drop ds.length)
    else some ([], e :: r)

/-- Parse a JSON number lexeme: optional minus, `0` or a nonzero-led digit
run, optional fraction, optional exponent. -/
def parseNum (l : Str) : Option (Str × Str) :=
  let sgnRest : Str × Str :=
    match l with
    | '-' :: r => (['-'], r)
    | _ => ([], l)
  match sgnRest.2 with
  | [] => none
  | c :: r =>
    if c = '0' ∨ (c.isDigit ∧ c ≠ '0') then
      let ip := if c = '0' then ['0'] else (c :: r).takeWhile Char.isDigit
      let rest1 := (c :: r).drop ip.length
      match parseFrac rest1 with
      | some (fp, rest2) =>
        match parseExp rest2 with
        | some (ep, rest3) => some (sgnRest.1 ++ ip ++ fp ++ ep, rest3)
        | none => none
      | none => none
    else none

/-- Parsing mode of the recursive-descent JSON parser: a value, the members of
an object (fields accumulated so far), or the items of an array. -/
inductive PMode
  | value
  | members (acc : List (Str × JVal))
  | items (acc : List JVal)

/-- The recursive-descent core of `JSON.parse`, structurally recursive on a
fuel bound (the input length suffices: every nested call first consumes at
least one character). -/
def parseJ : Nat → PMode → Str → Option (JVal × Str)
  | 0, _, _ => none
  | fuel + 1, .value, l =>
    match l with
    | [] => none
    | c :: rest =>
      if c = '{' then
        let r := skipJWs rest
        match r with
        | '}' :: r2 => some (.obj [], r2)
        | _ => parseJ fuel (.members []) r
      else if c = '[' then
        let r := skipJWs rest
        match r with
        | ']' :: r2 => some (.arr [], r2)
        | _ => parseJ fuel (.items []) r
      else if c = '"' then
        (parseJStr (rest.length + 1) rest).map (fun p => (.jstr p.1, p.2))
      else if (c :: rest).take 4 = str "true" then some (.jbool true, (c :: rest).drop 4)
      else if (c :: rest).take 5 = str "false" then some (.jbool false, (c :: rest).drop 5)
      else if (c :: rest).take 4 = str "null" then some (.null, (c :: rest).drop 4)
      else (parseNum (c :: rest)).map (fun p => (.num p.1, p.2))
  | fuel + 1, .members acc, l =>
    match l with
    | '"' :: rest =>
      match parseJStr (rest.length + 1) rest with
      | some (key, r1) =>
        match skipJWs r1 with
        | ':' :: r3 =>
          match parseJ fuel .value (skipJWs r3) with
          | some (v, r5) =>
            match skipJWs r5 with
            | ',' :: r7 => parseJ fuel (.members (acc ++ [(key, v)])) (skipJWs r7)
            | '}' :: r7 => some (.obj (acc ++ [(key, v)]), r7)
            | _ => none
          | none => none
        | _ => none
      | none => none
    | _ => none
  | fuel + 1, .items acc, l =>
    match parseJ fuel .value l with
    | some (v, r1) =>
      match skipJWs r1 with
      | ',' :: r3 => parseJ fuel (.items (acc ++ [v])) (skipJWs r3)
      | ']' :: r3 => some (.arr (acc ++ [v]), r3)
      | _ => none
    | none => none

/-- Model of `JSON.parse`: leading and trailing whitespace around a single
JSON value; anything else throws (returns `none`). -/
def parseJson (l : Str) : Option JVal :=
  let l1 := skipJWs l
  match parseJ (l1.length + 1) .value l1 with
  | some (v, rest) => if skipJWs rest = [] then some v else none
  | none => none

/-- Property access on a parsed object: JavaScript keeps the last of
duplicate keys. -/
def lookupField (fs : List (Str × JVal)) (k : Str) : Option JVal :=
  (fs.reverse.find? (fun f => f.1 = k)).map (fun f => f.2)

/-- Is the mantissa of a number lexeme zero? -/
def numIsZero (lex : Str) : Bool :=
  (lex.takeWhile (fun c => c ≠ 'e' ∧ c ≠ 'E')).all (fun c => c = '0' ∨ c = '.' ∨ c = '-')

/-- JavaScript truthiness of a parsed JSON value. -/
def jtruthy : JVal → Bool
  | .null => false
  | .jbool b => b
  | .num lex => !numIsZero lex
  | .jstr s => s ≠ []
  | .arr _ => true
  | .obj _ => true

/-- JavaScript string coercion of a parsed JSON value (applied when a truthy
non-string `part.text` reaches the string pipeline).  Modelled: numbers keep
their JSON lexeme rather than re-formatting the float. -/
def jsToString : JVal → Str
  | .jstr s => s
  | .num lex => lex
  | .jbool true => str "true"
  | .jbool false => str "false"
  | .null => str "null"
  | .arr xs => List.intercalate [','] (xs.attach.map (fun x => jsToString x.1))
  | .obj _ => str "[object Object]"
termination_by v => sizeOf v
decreasing_by
  have h := List.sizeOf_lt_of_mem x.2
  simp
  omega

/-! ## Document Accumulator -/

/-- `processTextContent` (api.ts lines 333-361): format the fragment, return
the accumulation unchanged when the formatted text is already contained in it,
otherwise append it. -/
def processTextContent (text acc : Str) : Str :=
  let formattedText := formatTextContent text
  if acc ≠ [] then
    if jsIncludes acc formattedText then acc
    else acc ++ formattedText
  else formattedText

/-- `accumulateStreamingContent` (api.ts lines 754-764): derive the plain-text
view, either from the new text alone (empty accumulation) or from the
accumulation joined to the new text by a newline. -/
def accumulateStreamingContent (newText acc : Str) : Str :=
  if acc = [] then convertToPlainText newText
  else convertToPlainText (acc ++ '\n' :: newText)

/-- `processBufferContent` (api.ts lines 416-433): flush a leftover buffer at
end of stream; a JSON object with a string `text` field contributes its
formatted text, a parse failure appends the formatted raw buffer, any other
parsed shape contributes nothing. -/
def processBufferContent (buffer acc : Str) : Str :=
  if jsTrim buffer = [] then acc
  else
    match parseJson buffer with
    | some v =>
      match v with
      | .obj fs =>
        match lookupField fs (str "text") with
        | some (.jstr t) => acc ++ formatTextContent t
        | _ => acc
      | _ => acc
    | none => acc ++ formatTextContent buffer

/-! ## `cleanupAccumulatedContent` (api.ts lines 554-610) -/

/-- Match the opening tag `<h[1-6][^>]*>` at the head of the input, returning
the remainder after the tag. -/
def matchOpenH : Str → Option Str
  | '<' :: 'h' :: d :: rest =>
    if '1' ≤ d ∧ d ≤ '6' then
      let attrs := rest.takeWhile (fun c => c ≠ '>')
      match rest.drop attrs.length with
      | '>' :: after => some after
      | _ => none
    else none
  | _ => none

/-- Does the input start with a closing tag `</h[1-6]>`? -/
def isCloseH (l : Str) : Bool :=
  match l with
  | '<' :: '/' :: 'h' :: d :: '>' :: _ => '1' ≤ d ∧ d ≤ '6'
  | _ => false

/-- Find the lazy body of a header element: the shortest newline-free run of
characters before a closing `</h[1-6]>` tag, returning the body and the
remainder after the tag. -/
def findCloseH : Str → Option (Str × Str)
  | [] => none
  | c :: rest =>
    if isCloseH (c :: rest) then some ([], (c :: rest).drop 5)
    else if c = '\n' then none
    else (findCloseH rest).map (fun p => (c :: p.1, p.2))

/-- Match a whole header element `<h[1-6][^>]*>.*?</h[1-6]>` at the head of
the input, returning the matched text and the remainder. -/
def matchHeaderAt (l : Str) : Option (Str × Str) :=
  match matchOpenH l with
  | some after =>
    match findCloseH after with
    | some (_, rem) => some (l.take (l.length - rem.length), rem)
    | none => none
  | none => none

/-- Find the leftmost header element: text before it, the match, and the
remainder. -/
def findHeader : Str → Option (Str × Str × Str)
  | [] => none
  | c :: rest =>
    match matchHeaderAt (c :: rest) with
    | some (m, rem) => some ([], m, rem)
    | none => (findHeader rest).map (fun t => (c :: t.1, t.2.1, t.2.2))

/-- Model of `split(/(<h[1-6][^>]*>.*?<\/h[1-6]>)/)` (api.ts line 566): the
alternating list of non-match pieces and captured header elements. -/
def splitHeadersF : Nat → Str → List Str
  | 0, l => [l]
  | fuel + 1, l =>
    match findHeader l with
    | some (b, m, a) => b :: m :: splitHeadersF fuel a
    | none => [l]

/-- Model of `replace(/<[^>]*>/g, '')` (api.ts line 575): delete every
complete tag span. -/
def stripTagsF : Nat → Str → Str
  | 0, l => l
  | _ + 1, [] => []
  | fuel + 1, '<' :: rest =>
    let inner := rest.takeWhile (fun c => c ≠ '>')
    match rest.drop inner.length with
    | '>' :: after => stripTagsF fuel after
    | _ => '<' :: stripTagsF fuel rest
  | fuel + 1, c :: rest => c :: stripTagsF fuel rest

/-- The loop of api.ts lines 569-582 reads the split result pairwise:
sections[i] as the "header" and sections[i+1] (or empty) as its content. -/
def pairSections : List Str → List (Str × Str)
  | [] => []
  | [h] => [(h, [])]
  | h :: c :: rest => (h, c) :: pairSections rest

/-- Build the insertion-ordered unique-section map of api.ts lines 567-582:
keyed by the tag-stripped trimmed header text, first occurrence wins. -/
def buildSections : List (Str × Str) → List (Str × Str) → List (Str × Str)
  | [], uniq => uniq
  | (h, c) :: rest, uniq =>
    if jsTrim h ≠ [] then
      let key := jsTrim (stripTagsF (h.length + 1) h)
      if uniq.any (fun e => e.1 = key) then buildSections rest uniq
      else buildSections rest (uniq ++ [(key, h ++ c)])
    else buildSections rest uniq

/-- Does the header text match `^\d+\.`? -/
def startsNumDot (k : Str) : Bool :=
  let ds := k.takeWhile Char.isDigit
  ds ≠ [] ∧ (k.drop ds.length).head? = some '.'

/-- Match `<h[1-6][^>]*>(\d+\.)(.*?)<\/h[1-6]>` at the head of the input,
returning the second capture group and the remainder after the close tag. -/
def matchNumberedHeaderAt (l : Str) : Option (Str × Str) :=
  match matchOpenH l with
  | some after =>
    let ds := after.takeWhile Char.isDigit
    if ds ≠ [] ∧ (after.drop ds.length).head? = some '.' then
      findCloseH (after.drop (ds.length + 1))
    else none
  | none => none

/-- Leftmost match of the numbered-header pattern. -/
def findNumberedHeader : Str → Option (Str × Str × Str)
  | [] => none
  | c :: rest =>
    match matchNumberedHeaderAt (c :: rest) with
    | some (g2, rem) => some ([], g2, rem)
    | none => (findNumberedHeader rest).map (fun t => (c :: t.1, t.2.1, t.2.2))

/-- The single (non-global) renumbering replace of api.ts lines 591-594. -/
def renumberHeader (n : Nat) (v : Str) : Str :=
  match findNumberedHeader v with
  | some (before, g2, after) =>
    before ++ str "<h2>" ++ (toString n).toList ++ '.' :: g2 ++ str "</h2>" ++ after
  | none => v

/-- Reassemble the unique sections (api.ts lines 585-600), renumbering the
sections whose header text starts with digits and a dot. -/
def assembleSections : Nat → List (Str × Str) → Str
  | _, [] => []
  | n, (k, v) :: rest =>
    if startsNumDot k then renumberHeader n v ++ assembleSections (n + 1) rest
    else v ++ assembleSections n rest

/-- `cleanupAccumulatedContent` (api.ts lines 554-610): clean `html`
artifacts, de-duplicate header-delimited sections preserving first
occurrences, renumber numbered sections, and clean again. -/
def cleanupAccumulatedContent (content : Str) : Str :=
  let c := replaceHtmlWs 0 (content.length + 1) content
  let c := replaceHtmlWs 1 (c.length + 1) c
  let c := replaceHtmlWs 2 (c.length + 1) c
  let c := stripTrailingHtml c
  let c := stripHtmlWsEnd c
  let c := stripHtmlWsStart c
  let c := jsTrim c
  let sections := splitHeadersF (c.length + 1) c
  let uniq := buildSections (pairSections sections) []
  let fc := assembleSections 1 uniq
  let fc := replaceHtmlWs 0 (fc.length + 1) fc
  let fc := replaceHtmlWs 1 (fc.length + 1) fc
  let fc := stripTrailingHtml fc
  jsTrim fc

/-! ## The `streamContract` session (api.ts lines 111-330)

The read loop is modelled as a step function over the mutable session state
(`buffer`, `accumulatedContent`, `incompleteJsonBuffer`); every loop-phase
`onData` call passes the literal tag `false` (lines 255, 274), so emissions
are collected as plain strings and tagged when the callback trace is
assembled. -/

/-- The per-session mutable state of `streamContract` (api.ts lines 136-138). -/
structure SState where
  buffer : Str
  acc : Str
  pending : Str
deriving DecidableEq, Repr

/-- The state at session start. -/
def initState : SState := ⟨[], [], []⟩

/-- The fragment-emission block of api.ts lines 245-257 (and identically
263-276): process the fragment text against the accumulation; when the result
is truthy, store it and emit the derived plain-text view if that is truthy. -/
def handleTextFragment (t acc : Str) : Str × List Str :=
  let formattedContent := processTextContent t acc
  if formattedContent ≠ [] then
    let plainTextContent := accumulateStreamingContent t formattedContent
    (formattedContent, if plainTextContent ≠ [] then [plainTextContent] else [])
  else (acc, [])

/-- The inner `parts` loop of api.ts lines 263-278.  The boolean is false when
iteration aborted with a caught `TypeError` (a `null` part), dropping the rest
of the object but keeping prior effects. -/
def partsLoop (acc : Str) : List JVal → Str × List Str × Bool
  | [] => (acc, [], true)
  | p :: rest =>
    match p with
    | .null => (acc, [], false)
    | .obj fs =>
      match lookupField fs (str "text") with
      | some v =>
        if jtruthy v then
          let r1 := handleTextFragment (jsToString v) acc
          let r2 := partsLoop r1.1 rest
          (r2.1, r1.2 ++ r2.2.1, r2.2.2)
        else partsLoop acc rest
      | none => partsLoop acc rest
    | _ => partsLoop acc rest

/-- The `candidates` loop of api.ts lines 261-280.  A `null` candidate or a
truthy non-iterable `parts` value raises a `TypeError` caught by the
surrounding handler, aborting the rest of the object; a string `parts` is
iterated per character, none of which has a `text` property. -/
def candidatesLoop (acc : Str) : List JVal → Str × List Str
  | [] => (acc, [])
  | c :: rest =>
    match c with
    | .null => (acc, [])
    | .obj fs =>
      match lookupField fs (str "content") with
      | some cv =>
        if jtruthy cv then
          match cv with
          | .obj cfs =>
            match lookupField cfs (str "parts") with
            | some pv =>
              if jtruthy pv then
                match pv with
                | .arr ps =>
                  let r1 := partsLoop acc ps
                  if r1.2.2 then
                    let r2 := candidatesLoop r1.1 rest
                    (r2.1, r1.2.1 ++ r2.2)
                  else (r1.1, r1.2.1)
                | .jstr _ => candidatesLoop acc rest
                | _ => (acc, [])
              else candidatesLoop acc rest
            | none => candidatesLoop acc rest
          | _ => candidatesLoop acc rest
        else candidatesLoop acc rest
      | none => candidatesLoop acc rest
    | _ => candidatesLoop acc rest

/-- Dispatch on the shape of a parsed object (api.ts lines 245-284): a string
`text` field takes the flat path, an array `candidates` field the nested path,
anything else (including the `TypeError` a `null` value raises, caught at line
285 with no state change) contributes nothing. -/
def handleParsed (v : JVal) (acc : Str) : Str × List Str :=
  match v with
  | .obj fs =>
    match lookupField fs (str "text") with
    | some (.jstr t) => handleTextFragment t acc
    | _ =>
      match lookupField fs (str "candidates") with
      | some (.arr cs) => candidatesLoop acc cs
      | _ => (acc, [])
  | _ => (acc, [])

/-- Process one `data:` event payload (api.ts lines 179-315): assemble, and
parse each completed JSON payload, dropping it on a parse failure (lines
285-301) and extracting fragments otherwise. -/
def stepPayload (st : SState) (rawData : Str) : SState × List Str :=
  let asm := assembleStep st.pending rawData
  let r := asm.2.foldl
    (fun (p : Str × List Str) j =>
      match parseJson j with
      | some v =>
        let h := handleParsed v p.1
        (h.1, p.2 ++ h.2)
      | none => p)
    (st.acc, [])
  ({ st with acc := r.1, pending := asm.1 }, r.2)

/-- Process the data events of a list of payloads in order. -/
def runPayloads (st : SState) : List Str → SState × List Str
  | [] => (st, [])
  | d :: rest =>
    let s1 := stepPayload st d
    let s2 := runPayloads s1.1 rest
    (s2.1, s1.2 ++ s2.2)

/-- Is this a `data: ` event line (api.ts line 179)? -/
def isDataLine (line : Str) : Bool := line.take 6 = str "data: "

/-- Process one decoded line (api.ts lines 178-181): only `data: ` lines are
handled, using the payload after the six-character prefix. -/
def stepLine (st : SState) (line : Str) : SState × List Str :=
  if isDataLine line then stepPayload st (line.drop 6) else (st, [])

/-- Process a list of complete lines. -/
def runLines (st : SState) : List Str → SState × List Str
  | [] => (st, [])
  | l :: rest =>
    let s1 := stepLine st l
    let s2 := runLines s1.1 rest
    (s2.1, s1.2 ++ s2.2)

/-- Process one decoded chunk (api.ts lines 171-176): append to the line
buffer, split on newlines, keep the trailing partial line buffered and process
the complete lines. -/
def stepChunk (st : SState) (chunk : Str) : SState × List Str :=
  let parts := splitLines (st.buffer ++ chunk)
  let r := runLines { st with buffer := [] } parts.dropLast
  ({ r.1 with buffer := parts.getLastD [] }, r.2)

/-- The read loop over the decoded chunks of the response stream. -/
def runLoop (st : SState) : List Str → SState × List Str
  | [] => (st, [])
  | c :: rest =>
    let s1 := stepChunk st c
    let s2 := runLoop s1.1 rest
    (s2.1, s1.2 ++ s2.2)

/-- The buffer flush of the `done` branch (api.ts lines 150-157): a leftover
line with non-whitespace content is pushed through `processBufferContent`, and
a truthy result replaces the accumulation. -/
def flushAcc (st : SState) : Str :=
  if jsTrim st.buffer ≠ [] then
    let finalContent := processBufferContent st.buffer st.acc
    if finalContent ≠ [] then finalContent else st.acc
  else st.acc

/-- One callback invocation of the session: `onData(s, isFinal)`,
`onComplete()`, or `onError(...)`. -/
inductive Ev
  | data (s : Str) (isFinal : Bool)
  | complete
  | error
deriving DecidableEq, Repr

/-- The callbacks of the `done` branch (api.ts lines 150-168): after the
flush, a non-empty accumulation is cleaned, converted to plain text and
emitted with the final tag; then completion is signalled. -/
def doneEvents (st : SState) : List Ev :=
  let acc1 := flushAcc st
  (if acc1 = [] then []
   else [Ev.data (convertToPlainText (cleanupAccumulatedContent acc1)) true]) ++
  [Ev.complete]

/-- The full callback trace of a `streamContract` session that reads the given
decoded chunks and then sees end-of-stream. -/
def runStreamContract (chunks : List Str) : List Ev :=
  let r := runLoop initState chunks
  r.2.map (fun s => Ev.data s false) ++ doneEvents r.1

/-- The callback trace when the cancellation signal trips before iteration
`j` of the read loop (api.ts lines 143-146): the check at the top of the loop
breaks out without emitting anything further, skipping the `done` branch. -/
def runStreamAborted (st : SState) (chunks : List Str) (j : Nat) : List Ev :=
  match j with
  | 0 => []
  | j' + 1 =>
    match chunks with
    | [] => doneEvents st
    | c :: rest =>
      let s1 := stepChunk st c
      s1.2.map (fun s => Ev.data s false) ++ runStreamAborted s1.1 rest j'

/-- Number of final-tagged `onData` invocations in a trace. -/
def countFinal (evs : List Ev) : Nat :=
  evs.countP (fun e =>
    match e with
    | .data _ b => b
    | _ => false)

/-- Number of non-final `onData` invocations in a trace. -/
def countNonFinal (evs : List Ev) : Nat :=
  evs.countP (fun e =>
    match e with
    | .data _ b => !b
    | _ => false)

/-- Number of `onComplete` invocations in a trace. -/
def countComplete (evs : List Ev) : Nat :=
  evs.countP (fun e =>
    match e with
    | .complete => true
    | _ => false)

/-- Number of `onError` invocations in a trace. -/
def countError (evs : List Ev) : Nat :=
  evs.countP (fun e =>
    match e with
    | .error => true
    | _ => false)

/-! ## Lemmas about the Document Accumulator -/

theorem jsIncludes_iff (s sub : Str) : jsIncludes s sub = true ↔ sub <:+: s := by
  simp [jsIncludes]

theorem jsIncludes_append_self (acc f : Str) : jsIncludes (acc ++ f) f = true :=
  (jsIncludes_iff _ _).mpr (List.suffix_append acc f).isInfix

theorem jsIncludes_refl (f : Str) : jsIncludes f f = true :=
  (jsIncludes_iff _ _).mpr List.infix_rfl

/-- The duplicate branch of `processTextContent`: when the formatted fragment
is already contained in the accumulation, nothing changes. -/
theorem processTextContent_of_includes (t acc : Str)
    (h : jsIncludes acc (formatTextContent t) = true) :
    processTextContent t acc = acc := by
  unfold processTextContent
  by_cases ha : acc = []
  · subst ha
    have hf : formatTextContent t = [] :=
      List.sublist_nil.mp ((jsIncludes_iff _ _).mp h).sublist
    simp [hf]
  · simp [ha, h]

/-- The result of `processTextContent` always contains the formatted
fragment. -/
theorem processTextContent_includes (t acc : Str) :
    jsIncludes (processTextContent t acc) (formatTextContent t) = true := by
  unfold processTextContent
  by_cases ha : acc = []
  · simp [ha, jsIncludes_refl]
  · by_cases hi : jsIncludes acc (formatTextContent t) = true
    · simp [ha, hi]
    · simp [ha, hi, jsIncludes_append_self]

/-- Applying `processTextContent` twice with the same fragment changes
nothing the second time. -/
theorem processTextContent_idem (t acc : Str) :
    processTextContent t (processTextContent t acc) = processTextContent t acc :=
  processTextContent_of_includes t _ (processTextContent_includes t acc)

/-- A non-empty accumulation stays non-empty. -/
theorem processTextContent_ne_nil (t acc : Str) (h : acc ≠ []) :
    processTextContent t acc ≠ [] := by
  unfold processTextContent
  by_cases hi : jsIncludes acc (formatTextContent t) = true
  · simp [h, hi]
  · simp [h, hi]

/-- C4 —
For every Accumulation state and every fragment whose formatted text already
appears verbatim as a substring of the Accumulation, processing the fragment
leaves the Accumulation unchanged; in particular processing the same fragment
twice in a row leaves the Accumulation after the second delivery equal to the
Accumulation after the first. -/
theorem duplicate_fragment_leaves_acc_unchanged (t acc : Str) :
    (jsIncludes acc (formatTextContent t) = true → processTextContent t acc = acc) ∧
    processTextContent t (processTextContent t acc) = processTextContent t acc :=
  ⟨processTextContent_of_includes t acc, processTextContent_idem t acc⟩

/-- Witness for C4 at a concrete input. -/
theorem duplicate_fragment_leaves_acc_unchanged_witness :
    processTextContent (str "Hi") (str "xHiy") = str "xHiy" :=
  (duplicate_fragment_leaves_acc_unchanged (str "Hi") (str "xHiy")).1 (by decide)

/-- C5 (amended) —
Processing the same fragment again returns the identical state and the
identical emission list: the duplicate delivery repeats the previous non-final
emission instead of producing none. -/
theorem duplicate_fragment_repeats_emission (t acc : Str) :
    handleTextFragment t (handleTextFragment t acc).1 = handleTextFragment t acc := by
  by_cases h1 : processTextContent t acc = []
  · have hacc : (handleTextFragment t acc).1 = acc := by
      unfold handleTextFragment
      simp [h1]
    rw [hacc]
  · have hfst : (handleTextFragment t acc).1 = processTextContent t acc := by
      unfold handleTextFragment
      simp [h1]
    rw [hfst]
    unfold handleTextFragment
    simp [processTextContent_idem t acc, h1]

/-- C5 counterexample —
The same `data:` event delivered twice in a row produces two non-final
emissions carrying the same string, while the Accumulation stays `Hi`: the
second delivery is not a no-op at the callback level. -/
theorem duplicate_event_reemits :
    (runLoop initState
        [str "data: \x7b\"text\":\"Hi\"\x7d\ndata: \x7b\"text\":\"Hi\"\x7d\n"]).2 =
      [str "Hi\nHi", str "Hi\nHi"] ∧
    (runLoop initState
        [str "data: \x7b\"text\":\"Hi\"\x7d\ndata: \x7b\"text\":\"Hi\"\x7d\n"]).1.acc =
      str "Hi" := by
  constructor
  · decide
  · decide

/-- C3 (amended) —
Every non-final emission equals the plain-text transform applied to the
updated Accumulation joined by a newline to the raw fragment text: the
delivered view is a function of the Accumulation and the fragment, not of the
Accumulation alone. -/
theorem emission_is_transform_of_acc_and_fragment (t acc e : Str)
    (h : e ∈ (handleTextFragment t acc).2) :
    e = convertToPlainText ((handleTextFragment t acc).1 ++ '\n' :: t) := by
  by_cases h1 : processTextContent t acc = []
  · unfold handleTextFragment at h
    simp [h1] at h
  · have hfst : (handleTextFragment t acc).1 = processTextContent t acc := by
      unfold handleTextFragment
      simp [h1]
    have hpt : accumulateStreamingContent t (processTextContent t acc) =
        convertToPlainText (processTextContent t acc ++ '\n' :: t) := by
      unfold accumulateStreamingContent
      simp [h1]
    by_cases h2 : accumulateStreamingContent t (processTextContent t acc) = []
    · have hsnd : (handleTextFragment t acc).2 = [] := by
        unfold handleTextFragment
        simp [h1, h2]
      rw [hsnd] at h
      exact absurd h (List.not_mem_nil e)
    · have hsnd : (handleTextFragment t acc).2 =
          [accumulateStreamingContent t (processTextContent t acc)] := by
        unfold handleTextFragment
        simp [h1, h2]
      rw [hsnd] at h
      have he : e = accumulateStreamingContent t (processTextContent t acc) := by
        simpa using h
      rw [he, hfst, hpt]

/-- Witness for C3 (amended) at a concrete input. -/
theorem emission_is_transform_of_acc_and_fragment_witness :
    str "Hi\nHi" =
      convertToPlainText ((handleTextFragment (str "Hi") []).1 ++ '\n' :: str "Hi") :=
  emission_is_transform_of_acc_and_fragment (str "Hi") [] (str "Hi\nHi") (by decide)

/-- C3 counterexample —
In the session processing the single event `data: ` with payload text `Hi`,
the non-final emission is `Hi\nHi` while the Accumulation at that moment is
`Hi`, whose plain-text transform is `Hi`: the delivered string is not the
transform of the Accumulation alone. -/
theorem emission_differs_from_transform_of_acc :
    (runLoop initState [str "data: \x7b\"text\":\"Hi\"\x7d\n"]).2 = [str "Hi\nHi"] ∧
    (runLoop initState [str "data: \x7b\"text\":\"Hi\"\x7d\n"]).1.acc = str "Hi" ∧
    str "Hi\nHi" ≠ convertToPlainText (str "Hi") := by
  refine ⟨by decide, by decide, by decide⟩

/-! ## Error recovery and the pending buffer -/

theorem dropWhile_eq_self_of (p : Char → Bool) (l : Str)
    (h : ∀ c ∈ l, p c = false) : l.dropWhile p = l := by
  cases l with
  | nil => rfl
  | cons c rest => simp [List.dropWhile_cons, h c (List.mem_cons_self c rest)]

theorem jsTrim_eq_self (l : Str) (h : ∀ c ∈ l, wsChar c = false) : jsTrim l = l := by
  unfold jsTrim
  rw [dropWhile_eq_self_of wsChar l h]
  rw [dropWhile_eq_self_of wsChar l.reverse
    (by intro c hc; exact h c (List.mem_reverse.mp hc))]
  exact List.reverse_reverse l

/-- C7 —
A payload that passes the brace-balance check but fails `JSON.parse` is
dropped without touching the session state, without emitting anything and
without an error callback, and processing continues with the remaining events
exactly as if the malformed object had never arrived. -/
theorem malformed_json_dropped (st : SState) (d : Str) (rest : List Str)
    (h1 : st.pending = []) (h2 : d.head? = some '{') (h3 : jsTrim d = d)
    (h4 : braceScan d = 0) (h5 : (parseJson d).isNone = true) :
    stepPayload st d = (st, []) ∧
    runPayloads st (d :: rest) = runPayloads st rest := by
  obtain ⟨b, a, p⟩ := st
  simp only at h1
  subst h1
  have hne : d ≠ doneSentinel := by
    intro he
    rw [he] at h2
    exact absurd h2 (by decide)
  have hnil : d ≠ [] := by
    intro he
    rw [he] at h2
    exact absurd h2 (by decide)
  have hasm : assembleStep (SState.mk b a []).pending d = ([], [d]) := by
    unfold assembleStep
    simp [h3, hne, hnil, h2, h4]
  have hstep : stepPayload (SState.mk b a []) d = (SState.mk b a [], []) := by
    unfold stepPayload
    rw [hasm]
    cases hp : parseJson d with
    | some v => rw [hp] at h5; simp at h5
    | none => simp [hp]
  refine ⟨hstep, ?_⟩
  show (let s1 := stepPayload (SState.mk b a []) d
        let s2 := runPayloads s1.1 rest
        (s2.1, s1.2 ++ s2.2)) = runPayloads (SState.mk b a []) rest
  rw [hstep]
  simp

/-- Witness for C7: the payload has balanced braces but no colon, so parsing
fails; the session state and the continuation are untouched. -/
theorem malformed_json_dropped_witness :
    stepPayload initState (str "\x7b\"text\" \"a\"\x7d") = (initState, []) ∧
    runPayloads initState [str "\x7b\"text\" \"a\"\x7d", str "x"] =
      runPayloads initState [str "x"] :=
  malformed_json_dropped initState (str "\x7b\"text\" \"a\"\x7d") [str "x"]
    (by decide) (by decide) (by decide) (by decide) (by decide)

theorem scan_replicate_a (B : Nat) :
    List.foldl scanStep ⟨1, false, false⟩ (List.replicate B 'a') = ⟨1, false, false⟩ := by
  induction B with
  | zero => rfl
  | succ n ih => simpa [List.replicate_succ, show scanStep ⟨1, false, false⟩ 'a' =
      ⟨1, false, false⟩ from rfl] using ih

theorem braceScan_open_replicate (B : Nat) :
    braceScan ('{' :: List.replicate B 'a') = 1 := by
  unfold braceScan
  rw [List.foldl_cons, show scanStep ⟨0, false, false⟩ '{' = ⟨1, false, false⟩ from rfl,
    scan_replicate_a]

/-- C8 —
There is no pending-buffer bound: for every size `B` the single event payload
consisting of an opening brace followed by `B` letters leaves a pending buffer
of length `B + 1` in place, with no emission and no reported decode error.
The incomplete-JSON buffer grows without bound and is never discarded. -/
theorem pending_buffer_unbounded (B : Nat) :
    stepPayload initState ('{' :: List.replicate B 'a') =
      (SState.mk [] [] ('{' :: List.replicate B 'a'), []) ∧
    ('{' :: List.replicate B 'a').length = B + 1 := by
  constructor
  · have hws : ∀ c ∈ ('{' :: List.replicate B 'a'), wsChar c = false := by
      intro c hc
      rcases List.mem_cons.mp hc with h | h
      · subst h; rfl
      · rw [List.eq_of_mem_replicate h]; rfl
    have htrim : jsTrim ('{' :: List.replicate B 'a') = '{' :: List.replicate B 'a' :=
      jsTrim_eq_self _ hws
    have hne : ('{' :: List.replicate B 'a') ≠ doneSentinel := by
      intro h
      rw [show doneSentinel = '[' :: str "DONE]" from by decide] at h
      injection h with h1 _
      exact absurd h1 (by decide)
    have hasm : assembleStep initState.pending ('{' :: List.replicate B 'a') =
        ('{' :: List.replicate B 'a', []) := by
      unfold assembleStep
      simp [initState, htrim, hne, braceScan_open_replicate B]
    unfold stepPayload
    rw [hasm]
    rfl
  · simp

/-! ## Trace lemmas: final emission, completion, cancellation -/

theorem countFinal_map_false (l : List Str) :
    countFinal (l.map (fun s => Ev.data s false)) = 0 := by
  simp [countFinal]

theorem countComplete_map_false (l : List Str) :
    countComplete (l.map (fun s => Ev.data s false)) = 0 := by
  simp [countComplete]

theorem countError_map_false (l : List Str) :
    countError (l.map (fun s => Ev.data s false)) = 0 := by
  simp [countError]

theorem countFinal_append (a b : List Ev) :
    countFinal (a ++ b) = countFinal a + countFinal b :=
  List.countP_append _ a b

theorem countComplete_append (a b : List Ev) :
    countComplete (a ++ b) = countComplete a + countComplete b :=
  List.countP_append _ a b

theorem runStreamContract_eq (chunks : List Str) :
    runStreamContract chunks =
      (runLoop initState chunks).2.map (fun s => Ev.data s false) ++
        doneEvents (runLoop initState chunks).1 := rfl

theorem doneEvents_of_empty (st : SState) (h : flushAcc st = []) :
    doneEvents st = [Ev.complete] := by
  unfold doneEvents
  simp [h]

theorem doneEvents_of_ne (st : SState) (h : flushAcc st ≠ []) :
    doneEvents st =
      [Ev.data (convertToPlainText (cleanupAccumulatedContent (flushAcc st))) true,
       Ev.complete] := by
  unfold doneEvents
  simp [h]

/-- C2 (amended) —
When the accumulation at end of stream (after the leftover-buffer flush) is
non-empty, the callback trace consists of non-final `onData` invocations
followed by exactly one final-tagged invocation and then exactly one
completion signal. -/
theorem final_emission_unique (chunks : List Str)
    (h : flushAcc (runLoop initState chunks).1 ≠ []) :
    ∃ pre s, runStreamContract chunks = pre ++ [Ev.data s true, Ev.complete] ∧
      ∀ e ∈ pre, ∃ t, e = Ev.data t false := by
  refine ⟨(runLoop initState chunks).2.map (fun s => Ev.data s false),
    convertToPlainText (cleanupAccumulatedContent (flushAcc (runLoop initState chunks).1)),
    ?_, ?_⟩
  · rw [runStreamContract_eq, doneEvents_of_ne _ h]
  · intro e he
    rcases List.mem_map.mp he with ⟨t, _, rfl⟩
    exact ⟨t, rfl⟩

/-- Witness for C2 (amended): a session with one real fragment. -/
theorem final_emission_unique_witness :
    ∃ pre s, runStreamContract [str "data: \x7b\"text\":\"Hi\"\x7d\n"] =
        pre ++ [Ev.data s true, Ev.complete] ∧
      ∀ e ∈ pre, ∃ t, e = Ev.data t false :=
  final_emission_unique [str "data: \x7b\"text\":\"Hi\"\x7d\n"] (by decide)

/-- C2 counterexample —
A fragment sequence ending in the sentinel whose only fragment has empty text
produces zero final-tagged invocations (the claim demands exactly one), while
completion is still signalled once. -/
theorem sentinel_only_sequence_has_no_final :
    countFinal (runStreamContract
      [str "data: \x7b\"text\":\"\"\x7d\ndata: [DONE]\n"]) = 0 ∧
    countComplete (runStreamContract
      [str "data: \x7b\"text\":\"\"\x7d\ndata: [DONE]\n"]) = 1 :=
  ⟨by decide, by decide⟩

/-- C10 —
When the accumulation is still empty at end of stream, no final-tagged
`onData` invocation is made at all, yet completion is signalled exactly once:
the final emission is conditional on a non-empty accumulation. -/
theorem empty_accumulation_completes_without_final (chunks : List Str)
    (h : flushAcc (runLoop initState chunks).1 = []) :
    countFinal (runStreamContract chunks) = 0 ∧
    countComplete (runStreamContract chunks) = 1 := by
  rw [runStreamContract_eq, doneEvents_of_empty _ h]
  constructor
  · rw [countFinal_append, countFinal_map_false]
    rfl
  · rw [countComplete_append, countComplete_map_false]
    rfl

/-- Witness for C10: a session seeing only the sentinel. -/
theorem empty_accumulation_completes_without_final_witness :
    countFinal (runStreamContract [str "data: [DONE]\n"]) = 0 ∧
    countComplete (runStreamContract [str "data: [DONE]\n"]) = 1 :=
  empty_accumulation_completes_without_final [str "data: [DONE]\n"] (by decide)

theorem runLoop_cons (st : SState) (c : Str) (rest : List Str) :
    runLoop st (c :: rest) =
      ((runLoop (stepChunk st c).1 rest).1,
       (stepChunk st c).2 ++ (runLoop (stepChunk st c).1 rest).2) := rfl

theorem runStreamAborted_eq_take (j : Nat) :
    ∀ (chunks : List Str) (st : SState), j ≤ chunks.length →
    runStreamAborted st chunks j =
      (runLoop st (chunks.take j)).2.map (fun s => Ev.data s false) := by
  induction j with
  | zero => intro chunks st _; cases chunks <;> rfl
  | succ j ih =>
    intro chunks st h
    cases chunks with
    | nil => exact absurd h (by simp)
    | cons c rest =>
      show (stepChunk st c).2.map (fun s => Ev.data s false) ++
          runStreamAborted (stepChunk st c).1 rest j = _
      rw [ih rest (stepChunk st c).1 (by simpa using h)]
      rw [List.take_succ_cons, runLoop_cons]
      simp

/-- C6 —
Once the cancellation signal trips before read iteration `j`, the callback
trace is exactly the non-final emissions of the first `j` chunks: nothing is
invoked after the signal, no final-tagged emission ever occurs, and neither
completion nor the error callback is invoked. -/
theorem cancellation_silences_callbacks (chunks : List Str) (j : Nat)
    (h : j ≤ chunks.length) :
    runStreamAborted initState chunks j =
      (runLoop initState (chunks.take j)).2.map (fun s => Ev.data s false) ∧
    countFinal (runStreamAborted initState chunks j) = 0 ∧
    countComplete (runStreamAborted initState chunks j) = 0 ∧
    countError (runStreamAborted initState chunks j) = 0 := by
  have heq := runStreamAborted_eq_take j chunks initState h
  refine ⟨heq, ?_, ?_, ?_⟩ <;> rw [heq]
  exacts [countFinal_map_false _, countComplete_map_false _, countError_map_false _]

/-- Witness for C6: cancellation after the first of two chunks. -/
theorem cancellation_silences_callbacks_witness :
    runStreamAborted initState
        [str "data: \x7b\"text\":\"Hi\"\x7d\n", str "data: \x7b\"text\":\"Yo\"\x7d\n"] 1 =
      (runLoop initState
        ([str "data: \x7b\"text\":\"Hi\"\x7d\n",
          str "data: \x7b\"text\":\"Yo\"\x7d\n"].take 1)).2.map
        (fun s => Ev.data s false) ∧
    countFinal (runStreamAborted initState
      [str "data: \x7b\"text\":\"Hi\"\x7d\n", str "data: \x7b\"text\":\"Yo\"\x7d\n"] 1) = 0 ∧
    countComplete (runStreamAborted initState
      [str "data: \x7b\"text\":\"Hi\"\x7d\n", str "data: \x7b\"text\":\"Yo\"\x7d\n"] 1) = 0 ∧
    countError (runStreamAborted initState
      [str "data: \x7b\"text\":\"Hi\"\x7d\n", str "data: \x7b\"text\":\"Yo\"\x7d\n"] 1) = 0 :=
  cancellation_silences_callbacks _ 1 (by decide)

/-! ## Whitespace collapse (the plain-text transform, C9) -/

/-- Two adjacent output characters are acceptable when they are not both
whitespace. -/
def okPair (a b : Char) : Prop := wsChar a = false ∨ wsChar b = false

theorem collapseWsAux_chain (r : Str) :
    List.Chain' okPair (collapseWsAux .norm r) ∧
    (∀ w, List.Chain' okPair (collapseWsAux (.pend w) r)) ∧
    List.Chain' okPair (collapseWsAux .run r) := by
  induction r with
  | nil =>
    exact ⟨List.chain'_nil, fun w => List.chain'_singleton w, List.chain'_singleton ' '⟩
  | cons c rest ih =>
    obtain ⟨ihn, ihp, ihr⟩ := ih
    by_cases hc : wsChar c = true
    · refine ⟨?_, fun w => ?_, ?_⟩
      · show List.Chain' okPair
          (if wsChar c then collapseWsAux (.pend c) rest else c :: collapseWsAux .norm rest)
        simpa [hc] using ihp c
      · show List.Chain' okPair
          (if wsChar c then collapseWsAux .run rest else w :: c :: collapseWsAux .norm rest)
        simpa [hc] using ihr
      · show List.Chain' okPair
          (if wsChar c then collapseWsAux .run rest else ' ' :: c :: collapseWsAux .norm rest)
        simpa [hc] using ihr
    · have hc' : wsChar c = false := by simpa using hc
      have htail : List.Chain' okPair (c :: collapseWsAux .norm rest) := by
        rw [List.chain'_cons']
        exact ⟨fun y _ => Or.inl hc', ihn⟩
      refine ⟨?_, fun w => ?_, ?_⟩
      · show List.Chain' okPair
          (if wsChar c then collapseWsAux (.pend c) rest else c :: collapseWsAux .norm rest)
        simpa [hc] using htail
      · show List.Chain' okPair
          (if wsChar c then collapseWsAux .run rest else w :: c :: collapseWsAux .norm rest)
        rw [if_neg hc, List.chain'_cons']
        refine ⟨fun y hy => ?_, htail⟩
        simp at hy
        subst hy
        exact Or.inr hc'
      · show List.Chain' okPair
          (if wsChar c then collapseWsAux .run rest else ' ' :: c :: collapseWsAux .norm rest)
        rw [if_neg hc, List.chain'_cons']
        refine ⟨fun y hy => ?_, htail⟩
        simp at hy
        subst hy
        exact Or.inr hc'

theorem chain'_of_suffix {R : Char → Char → Prop} {s l : Str} (hs : s <:+ l)
    (h : List.Chain' R l) : List.Chain' R s := by
  obtain ⟨t, rfl⟩ := hs
  exact (List.chain'_append.mp h).2.1

theorem chain'_okPair_reverse {l : Str} (h : List.Chain' okPair l) :
    List.Chain' okPair l.reverse := by
  rw [List.chain'_reverse]
  exact h.imp (fun a b hab => hab.symm)

theorem chain'_okPair_jsTrim (l : Str) (h : List.Chain' okPair l) :
    List.Chain' okPair (jsTrim l) := by
  unfold jsTrim
  exact chain'_okPair_reverse
    (chain'_of_suffix (List.dropWhile_suffix wsChar)
      (chain'_okPair_reverse (chain'_of_suffix (List.dropWhile_suffix wsChar) h)))

/-- C9 (amended) —
`formatTextContent` first collapses runs of three or more newlines to two and
then collapses every run of two or more whitespace characters (including a
double newline) to a single space, then trims: its output never contains two
adjacent whitespace characters, so a double newline does not survive. -/
theorem format_output_no_adjacent_whitespace (s : Str) :
    List.Chain' okPair (formatTextContent s) := by
  unfold formatTextContent collapseWs
  exact chain'_okPair_jsTrim _ ((collapseWsAux_chain _).1)

/-- C9 counterexample —
A run of three newlines does not become exactly two newlines: the text
`a\n\n\nb` formats to `a b`, in which no newline survives, because the
whitespace-run collapse runs after the newline collapse and also matches a
double newline. -/
theorem triple_newline_becomes_space :
    formatTextContent (str "a\n\n\nb") = str "a b" ∧
    (str "a b").count '\n' = 0 :=
  ⟨by decide, by decide⟩

/-! ## Fragment Assembler split-invariance (C1) -/

theorem assembleRun_cons (q e : Str) (rest : List Str) :
    assembleRun q (e :: rest) =
      ((assembleRun (assembleStep q e).1 rest).1,
       (assembleStep q e).2 ++ (assembleRun (assembleStep q e).1 rest).2) := rfl

theorem assembleRun_append (q : Str) (xs ys : List Str) :
    assembleRun q (xs ++ ys) =
      ((assembleRun (assembleRun q xs).1 ys).1,
       (assembleRun q xs).2 ++ (assembleRun (assembleRun q xs).1 ys).2) := by
  induction xs generalizing q with
  | nil => simp [assembleRun]
  | cons e rest ih =>
    rw [List.cons_append, assembleRun_cons, ih, assembleRun_cons]
    simp [List.append_assoc]

theorem assembleStep_nil_payload (q : Str) : assembleStep q [] = (q, []) := by
  unfold assembleStep
  rw [show jsTrim [] = [] from rfl]
  rw [if_neg (by decide : ¬(([] : Str) = doneSentinel))]
  rw [if_pos rfl]

theorem head?_append_left {a : Str} (b : Str) (h : a ≠ []) :
    (a ++ b).head? = a.head? := by
  cases a with
  | nil => exact absurd rfl h
  | cons x xs => rfl

theorem assembleStep_whole (o : Str) (hO : wholeObject o) :
    assembleStep [] o = ([], [o]) := by
  obtain ⟨hhead, hscan, _, htrim⟩ := hO
  have hnil : o ≠ [] := by
    intro h
    rw [h] at hhead
    exact absurd hhead (by decide)
  have hne : o ≠ doneSentinel := by
    intro h
    rw [h] at hhead
    exact absurd hhead (by decide)
  unfold assembleStep
  simp [htrim, hne, hnil, hhead, hscan]

theorem assembleRun_nils (ps : List Str) (h : ∀ p ∈ ps, p = []) :
    assembleRun [] ps = ([], []) := by
  induction ps with
  | nil => rfl
  | cons p rest ih =>
    have hp := h p (List.mem_cons_self p rest)
    subst hp
    rw [assembleRun_cons, assembleStep_nil_payload]
    rw [ih (fun x hx => h x (List.mem_cons_of_mem _ hx))]
    rfl

theorem assembleStep_piece (q p : Str) (hgp : goodPiece p) (hp : p ≠ []) :
    assembleStep q p =
      if (q ++ p).head? = some '{' then
        if braceScan (q ++ p) = 0 then ([], [q ++ p]) else (q ++ p, [])
      else ([], []) := by
  unfold assembleStep
  rw [hgp.1, if_neg hgp.2, if_neg hp]
  have hj : (if q = [] then p else q ++ p) = q ++ p := by
    by_cases hq : q = [] <;> simp [hq]
  simp only [hj]

/-- Feeding the trim-invariant, non-sentinel pieces of one scan-whole object
into the assembler, starting from a pending buffer holding a proper prefix of
the object, yields exactly that object. -/
theorem assemble_object_pieces (o : Str) (hO : wholeObject o) :
    ∀ (ps : List Str) (q : Str), (∀ p ∈ ps, goodPiece p) → q ++ ps.flatten = o →
      q.length < o.length → assembleRun q ps = ([], [o]) := by
  intro ps
  induction ps with
  | nil =>
    intro q _ heq hlen
    rw [List.flatten_nil, List.append_nil] at heq
    subst heq
    exact absurd hlen (lt_irrefl _)
  | cons p rest ih =>
    intro q hgood heq hlen
    have hgp : goodPiece p := hgood p (List.mem_cons_self p rest)
    rw [assembleRun_cons]
    by_cases hp : p = []
    · subst hp
      rw [assembleStep_nil_payload]
      have heq' : q ++ rest.flatten = o := by
        rw [List.flatten_cons, List.nil_append] at heq
        exact heq
      rw [ih q (fun x hx => hgood x (List.mem_cons_of_mem _ hx)) heq' hlen]
      simp
    · have hqp_pref : (q ++ p) ++ rest.flatten = o := by
        rw [← heq, List.flatten_cons, List.append_assoc]
      have hqp_ne : q ++ p ≠ [] := by simp [hp]
      have hhead : (q ++ p).head? = some '{' := by
        have h1 : ((q ++ p) ++ rest.flatten).head? = o.head? := by rw [hqp_pref]
        rw [head?_append_left rest.flatten hqp_ne] at h1
        rw [h1, hO.1]
      by_cases hrf : rest.flatten = []
      · have hqpo : q ++ p = o := by rw [← hqp_pref, hrf, List.append_nil]
        rw [assembleStep_piece q p hgp hp, if_pos hhead, hqpo, if_pos hO.2.1]
        have hrest : assembleRun [] rest = ([], []) := by
          refine assembleRun_nils rest ?_
          intro x hx
          have := List.flatten_eq_nil_iff.mp hrf
          exact this x hx
        rw [hrest]
        rfl
      · have hplen : 0 < p.length := List.length_pos.mpr hp
        have hlen' : (q ++ p).length < o.length := by
          have h1 := congrArg List.length hqp_pref
          rw [List.length_append] at h1
          have h2 : rest.flatten.length ≠ 0 :=
            fun hz => hrf (List.length_eq_zero.mp hz)
          omega
        have hne0 : braceScan (q ++ p) ≠ 0 := by
          have htake : o.take (q ++ p).length = q ++ p := by
            rw [← hqp_pref]
            exact List.take_left _ _
          have h1 := hO.2.2.1 (q ++ p).length hlen'
            (by rw [List.length_append]; omega)
          rw [htake] at h1
          exact h1
        rw [assembleStep_piece q p hgp hp, if_pos hhead, if_neg hne0]
        rw [ih (q ++ p) (fun x hx => hgood x (List.mem_cons_of_mem _ hx)) hqp_pref hlen']
        simp

/-- Delivering each whole object as one unsplit event emits the objects as
they are. -/
theorem assemble_unsplit (os : List Str) (h : ∀ o ∈ os, wholeObject o) :
    assembleRun [] os = ([], os) := by
  induction os with
  | nil => rfl
  | cons o rest ih =>
    rw [assembleRun_cons, assembleStep_whole o (h o (List.mem_cons_self o rest))]
    rw [ih (fun x hx => h x (List.mem_cons_of_mem _ hx))]
    rfl

/-- Delivering the concatenated pieces of every object emits the same
objects. -/
theorem assemble_split (pss : List (List Str)) (os : List Str)
    (hsplit : List.Forall₂ (fun ps o => ps.flatten = o ∧ ∀ p ∈ ps, goodPiece p) pss os)
    (hobj : ∀ o ∈ os, wholeObject o) :
    assembleRun [] pss.flatten = ([], os) := by
  induction hsplit with
  | nil => rfl
  | cons hrel hrest ih =>
    rename_i ps o pss' os'
    rw [List.flatten_cons, assembleRun_append]
    have hO := hobj o (List.mem_cons_self o os')
    have holen : 0 < o.length := by
      cases o with
      | nil => exact absurd hO.1 (by decide)
      | cons c cs => simp
    have h1 : assembleRun [] ps = ([], [o]) := by
      refine assemble_object_pieces o hO ps [] hrel.2 ?_ ?_
      · rw [List.nil_append]
        exact hrel.1
      · simpa using holen
    rw [h1, ih (fun x hx => hobj x (List.mem_cons_of_mem _ hx))]
    rfl

/-- C1 (amended) —
For every sequence of JSON object payloads, each starting with a brace, each
scan-balanced exactly at its end and unbalanced at every proper non-empty
prefix and free of leading or trailing whitespace, and every split of each
payload into pieces none of which is the sentinel and each of which is
unchanged by trimming, the Fragment Assembler run on the split delivery equals
the run on the unsplit delivery, and both emit exactly the original objects in
order.  (The trimming and sentinel conditions are necessary: the per-event
trim of api.ts line 180 destroys whitespace at piece boundaries.) -/
theorem assembler_split_invariance (os : List Str) (pss : List (List Str))
    (hobj : ∀ o ∈ os, wholeObject o)
    (hsplit : List.Forall₂ (fun ps o => ps.flatten = o ∧ ∀ p ∈ ps, goodPiece p) pss os) :
    assembleRun [] pss.flatten = assembleRun [] os ∧
    (assembleRun [] os).2 = os := by
  rw [assemble_split pss os hsplit hobj, assemble_unsplit os hobj]
  exact ⟨rfl, rfl⟩

/-- Witness for C1 (amended): the object with an escaped quote, split right
after the backslash. -/
theorem assembler_split_invariance_witness :
    assembleRun [] [str "\x7b\"text\":\"a\\", str "\"b\"\x7d"] =
      assembleRun [] [str "\x7b\"text\":\"a\\\"b\"\x7d"] ∧
    (assembleRun [] [str "\x7b\"text\":\"a\\\"b\"\x7d"]).2 =
      [str "\x7b\"text\":\"a\\\"b\"\x7d"] := by
  have h := assembler_split_invariance [str "\x7b\"text\":\"a\\\"b\"\x7d"]
    [[str "\x7b\"text\":\"a\\", str "\"b\"\x7d"]]
    (by decide)
    (List.Forall₂.cons ⟨by decide, by decide⟩ List.Forall₂.nil)
  simpa using h

/-- C1 counterexample —
Splitting the object with payload text `a b` right after the space makes the
per-event trim delete that space, so the split delivery reconstructs a
different object than the unsplit delivery. -/
theorem split_adjacent_to_space_alters_object :
    (assembleRun [] [str "\x7b\"text\":\"a ", str "b\"\x7d"]).2 ≠
      (assembleRun [] [str "\x7b\"text\":\"a b\"\x7d"]).2 := by
  decide

end CG
